import Mathlib

set_option maxRecDepth 100000

/-!
Verification of the job-run-result aggregation core of the repository
(`core/jobs/types/job_run_result.py`): the `JobRunResult` record type, its
validating constructor, the `as_stdout` / `as_stderr` factories, and the
greedy, heap-ordered `accumulate` bin-packing algorithm.

Strings are modelled by Lean `String` (Unicode code points) and byte
accounting by UTF-8 byte length, matching Python's
`len(python_utils.convert_to_bytes(s))` which encodes to UTF-8 and takes the
length. Exceptions are modelled with `Except`: the two `ValueError` raise
sites of the constructor become the two constructors of `JobError`.
-/

/-- The byte ceiling `MAX_OUTPUT_BYTES = 1500`. -/
def MAX_OUTPUT_BYTES : Nat := 1500

/-- The empty string, named so that it can stand in argument position. -/
def emptyStr : String := ""

/-- UTF-8 byte length of a string: each character contributes the size of its
UTF-8 encoding. Models `len(python_utils.convert_to_bytes(s))`. -/
def byteLen (s : String) : Nat :=
  (s.data.map Char.utf8Size).sum

/-- A job-run result record, holding the `stdout` and `stderr` channels of
`JobRunResult`. Equality is field-wise, as in `JobRunResult.__eq__`. -/
structure JobRunResult where
  stdout : String
  stderr : String
deriving DecidableEq

/-- `JobRunResult.len_in_bytes`: the byte lengths of the two channels, encoded
independently and summed. -/
def len_in_bytes (r : JobRunResult) : Nat :=
  byteLen r.stdout + byteLen r.stderr

/-- The two `ValueError` raise sites of `JobRunResult.__init__`. -/
inductive JobError where
  | emptyResult
  | exceedsMaxBytes
deriving DecidableEq

deriving instance DecidableEq for Except

/-- `JobRunResult.__init__`: rejects a record with both channels empty, then a
record whose `len_in_bytes` exceeds `MAX_OUTPUT_BYTES`. -/
def mkJobRunResult (stdout stderr : String) : Except JobError JobRunResult :=
  if stdout = emptyStr ∧ stderr = emptyStr then
    .error .emptyResult
  else if len_in_bytes ⟨stdout, stderr⟩ > MAX_OUTPUT_BYTES then
    .error .exceedsMaxBytes
  else
    .ok ⟨stdout, stderr⟩

/-- The single-quote character used by Python `repr` of a string. -/
def quoteChar : Char := Char.ofNat 39

/-- Models Python `'%s' % (value,)` for a string value: the identity. -/
def pyStr (value : String) : String := value

/-- Models Python `'%r' % (value,)` for a string value: the value wrapped in
quotes. Escape sequences are not modelled; they only lengthen the result and
play no role in the properties proved here (emptiness of the conversion). -/
def pyRepr (value : String) : String :=
  String.singleton quoteChar ++ value ++ String.singleton quoteChar

/-- `('%r' if use_repr else '%s') % (value,)` for a string value. -/
def strConv (value : String) (use_repr : Bool) : String :=
  if use_repr then pyRepr value else pyStr value

/-- `JobRunResult.as_stdout`: converts the value to text and builds a record
with that text as stdout and empty stderr. -/
def as_stdout (value : String) (use_repr : Bool) : Except JobError JobRunResult :=
  mkJobRunResult (strConv value use_repr) emptyStr

/-- `JobRunResult.as_stderr`: symmetric to `as_stdout`, populates stderr. -/
def as_stderr (value : String) (use_repr : Bool) : Except JobError JobRunResult :=
  mkJobRunResult emptyStr (strConv value use_repr)

/-- A heap entry `(result.len_in_bytes(), i, result)` as pushed by
`accumulate` onto the `heapq` min-heap. -/
abbrev HeapEntry := Nat × Nat × JobRunResult

/-- Lexicographic comparison of heap entries on the `(size, index)` key; the
order in which `heapq` pops the entries (the record component is never
compared because the `(size, index)` keys are pairwise distinct). -/
def keyLE (a b : HeapEntry) : Prop :=
  a.1 < b.1 ∨ (a.1 = b.1 ∧ a.2.1 ≤ b.2.1)

instance (a b : HeapEntry) : Decidable (keyLE a b) := by
  unfold keyLE
  exact inferInstance

/-- Strict version of `keyLE`, used to state uniqueness of the extraction
order. -/
def keyLT (a b : HeapEntry) : Prop :=
  a.1 < b.1 ∨ (a.1 = b.1 ∧ a.2.1 < b.2.1)

/-- Insertion into a `keyLE`-sorted list of heap entries. -/
def insertEntry (x : HeapEntry) : List HeapEntry → List HeapEntry
  | [] => [x]
  | y :: ys => if keyLE x y then x :: y :: ys else y :: insertEntry x ys

/-- Sorting heap entries into ascending `(size, index)` order: the sequence of
pops of the `heapq` min-heap. -/
def sortEntries : List HeapEntry → List HeapEntry
  | [] => []
  | x :: xs => insertEntry x (sortEntries xs)

/-- The keyed heap contents built by the push loop of `accumulate`:
`(result.len_in_bytes(), i, result)` for each input, with `i` the original
position used as tie-breaker. -/
def keyed (results : List JobRunResult) : List HeapEntry :=
  results.enum.map (fun p => (len_in_bytes p.2, p.1, p.2))

/-- The delimiter compensation of `accumulate`: 2 bytes when both channels of
the next-smallest record are non-empty, else 1. -/
def padding (r : JobRunResult) : Nat :=
  if r.stdout ≠ emptyStr ∧ r.stderr ≠ emptyStr then 2 else 1

/-- The batching loop of `accumulate`: the current batch and its tracked size
`latest_batch_size`, against the remaining records in pop order. Appends the
next record when `latest_batch_size + padding + result_size` is strictly below
the ceiling, otherwise closes the batch and seeds a new one. -/
def batchLoop (curBatch : List JobRunResult) (curSize : Nat) :
    List JobRunResult → List (List JobRunResult)
  | [] => [curBatch]
  | next :: rest =>
    if curSize + padding next + len_in_bytes next < MAX_OUTPUT_BYTES then
      batchLoop (curBatch ++ [next]) (curSize + padding next + len_in_bytes next) rest
    else
      curBatch :: batchLoop [next] (len_in_bytes next) rest

/-- The newline join delimiter. -/
def nl : String := String.singleton (Char.ofNat 10)

/-- Python `'\n'.join(l)`. -/
def joinStrings : List String → String
  | [] => emptyStr
  | [s] => s
  | s :: rest => s ++ nl ++ joinStrings rest

/-- Python string truthiness: whether a string is non-empty. -/
def isNonEmptyStr (s : String) : Bool :=
  decide (s ≠ emptyStr)

/-- `'\n'.join(x for x in l if x)`: the join over the non-empty members, as in
the batch-flushing loop of `accumulate`. -/
def joinNonEmpty (l : List String) : String :=
  joinStrings (l.filter isNonEmptyStr)

/-- One iteration of the final loop of `accumulate`: join the non-empty
stdouts and the non-empty stderrs of a batch and re-validate through the
constructor. -/
def mergeBatch (batch : List JobRunResult) : Except JobError JobRunResult :=
  mkJobRunResult (joinNonEmpty (batch.map (fun r => r.stdout)))
    (joinNonEmpty (batch.map (fun r => r.stderr)))

/-- The final loop of `accumulate` over all batches; the first constructor
failure propagates, as a raised exception would. -/
def mergeAll : List (List JobRunResult) → Except JobError (List JobRunResult)
  | [] => .ok []
  | b :: bs =>
    match mergeBatch b with
    | .error e => .error e
    | .ok r =>
      match mergeAll bs with
      | .error e => .error e
      | .ok rs => .ok (r :: rs)

/-- `accumulate` given an explicit heap-extraction order over the keyed
entries: the first popped record seeds the first batch, the batching loop
consumes the rest, and each batch is merged and re-validated. -/
def accumulateFromOrder (ord : List HeapEntry) : Except JobError (List JobRunResult) :=
  match ord.map (fun t => t.2.2) with
  | [] => .ok []
  | first :: rest => mergeAll (batchLoop [first] (len_in_bytes first) rest)

/-- `JobRunResult.accumulate`: pops the keyed heap in ascending
`(size, index)` order and batches greedily. -/
def accumulate (results : List JobRunResult) : Except JobError (List JobRunResult) :=
  accumulateFromOrder (sortEntries (keyed results))

/-- A record the constructor accepts: at least one non-empty channel and
`len_in_bytes` within the ceiling. Inputs to `accumulate` are assumed valid
(they were built through the constructor). -/
def Valid (r : JobRunResult) : Prop :=
  (r.stdout ≠ emptyStr ∨ r.stderr ≠ emptyStr) ∧ len_in_bytes r ≤ MAX_OUTPUT_BYTES

instance (r : JobRunResult) : Decidable (Valid r) := by
  unfold Valid
  exact inferInstance

/-- Splitting a character list on the newline character: Python
`s.split('\n')` at the character level (splitting the empty string yields one
empty piece). -/
def splitChars : List Char → List (List Char)
  | [] => [[]]
  | c :: rest =>
    match splitChars rest with
    | [] => [[]]
    | p :: ps => if c = Char.ofNat 10 then [] :: p :: ps else (c :: p) :: ps

/-- The non-empty pieces of a string split on the newline join delimiter, as
strings. -/
def splitPieces (s : String) : List String :=
  ((splitChars s.data).map String.mk).filter isNonEmptyStr

/-- A string free of the newline join delimiter. -/
def NoNewline (s : String) : Prop :=
  ∀ c ∈ s.data, c ≠ Char.ofNat 10

instance (s : String) : Decidable (NoNewline s) := by
  unfold NoNewline
  exact inferInstance

/-- Modelled from the spec: the per-channel delimiter cost of appending `next`
to a batch whose accumulated channel contents are `outAcc` and `errAcc` — one
delimiter byte per channel exactly when that channel of `next` is non-empty
AND the batch's corresponding channel already has content. The source has no
such function; `accumulate` charges `padding next` instead. -/
def precisePadding (outAcc errAcc : String) (next : JobRunResult) : Nat :=
  (if next.stdout ≠ emptyStr ∧ outAcc ≠ emptyStr then 1 else 0) +
    (if next.stderr ≠ emptyStr ∧ errAcc ≠ emptyStr then 1 else 0)

/-- One-byte stdout-only record with text `a`. -/
def ra : JobRunResult := ⟨ "a", emptyStr ⟩

/-- One-byte stdout-only record with text `b`. -/
def rb : JobRunResult := ⟨ "b", emptyStr ⟩

/-- One-byte stdout-only record with text `c`. -/
def rc : JobRunResult := ⟨ "c", emptyStr ⟩

/-- A record whose stdout contains the join delimiter. -/
def rNl : JobRunResult := ⟨ String.mk [ 'a', Char.ofNat 10, 'b' ], emptyStr ⟩

/-- An 800-byte stdout-only record. -/
def r800a : JobRunResult := ⟨ String.mk (List.replicate 800 'a'), emptyStr ⟩

/-- Another 800-byte stdout-only record. -/
def r800b : JobRunResult := ⟨ String.mk (List.replicate 800 'b'), emptyStr ⟩

/-- A 750-byte string. -/
def s750a : String := String.mk (List.replicate 750 'a')

/-- Another 750-byte string. -/
def s750b : String := String.mk (List.replicate 750 'b')

/-- The string `a\nb\nc` expected from merging `ra`, `rb`, `rc`. -/
def sABC : String := String.mk [ 'a', Char.ofNat 10, 'b', Char.ofNat 10, 'c' ]


/-! ### Byte-length and string basics -/

theorem byteLen_append (s t : String) : byteLen (s ++ t) = byteLen s + byteLen t := by
  unfold byteLen
  rw [String.data_append, List.map_append, List.sum_append]

theorem eq_empty_iff_data (s : String) : s = emptyStr ↔ s.data = [] := by
  constructor
  · intro h
    rw [h]
    rfl
  · intro h
    cases s with
    | mk d =>
      have hd : d = [] := h
      rw [hd]
      rfl

theorem byteLen_eq_zero_iff (s : String) : byteLen s = 0 ↔ s = emptyStr := by
  constructor
  · intro h
    unfold byteLen at h
    rw [List.sum_eq_zero_iff] at h
    rw [eq_empty_iff_data]
    rcases hd : s.data with _ | ⟨c, cs⟩
    · rfl
    · exfalso
      have hc : c.utf8Size = 0 := by
        apply h
        rw [hd]
        simp
      exact absurd hc (Nat.pos_iff_ne_zero.mp (Char.utf8Size_pos c))
  · intro h
    rw [h]
    rfl

theorem byteLen_nl : byteLen nl = 1 := by decide

theorem joinStrings_cons (s : String) (m : List String) (h : m ≠ []) :
    joinStrings (s :: m) = s ++ nl ++ joinStrings m := by
  cases m with
  | nil => exact absurd rfl h
  | cons a t => rfl

theorem byteLen_joinStrings_snoc (l : List String) (x : String) (h : l ≠ []) :
    byteLen (joinStrings (l ++ [x])) = byteLen (joinStrings l) + 1 + byteLen x := by
  induction l with
  | nil => exact absurd rfl h
  | cons a m ih =>
    cases m with
    | nil =>
      show byteLen (joinStrings [a, x]) = byteLen (joinStrings [a]) + 1 + byteLen x
      have h1 : joinStrings [a, x] = a ++ nl ++ x := rfl
      have h2 : joinStrings [a] = a := rfl
      rw [h1, h2, byteLen_append, byteLen_append, byteLen_nl]
    | cons b t =>
      have hbt : (b :: t : List String) ≠ [] := by simp
      have hbtx : (b :: t) ++ [x] ≠ ([] : List String) := by simp
      have e1 : (a :: b :: t) ++ [x] = a :: ((b :: t) ++ [x]) := rfl
      rw [e1, joinStrings_cons a _ hbtx, joinStrings_cons a _ hbt,
        byteLen_append, byteLen_append, byteLen_append, byteLen_append, byteLen_nl,
        ih hbt]
      omega

theorem joinStrings_ne_empty (l : List String) (h1 : l ≠ [])
    (h2 : ∀ s ∈ l, s ≠ emptyStr) : joinStrings l ≠ emptyStr := by
  cases l with
  | nil => exact absurd rfl h1
  | cons a m =>
    cases m with
    | nil =>
      exact h2 a (by simp)
    | cons b t =>
      have hbt : (b :: t : List String) ≠ [] := by simp
      rw [joinStrings_cons a _ hbt]
      intro hc
      have hz : byteLen (a ++ nl ++ joinStrings (b :: t)) = 0 :=
        (byteLen_eq_zero_iff _).mpr hc
      rw [byteLen_append, byteLen_append, byteLen_nl] at hz
      omega


/-! ### joinNonEmpty -/

theorem isNonEmptyStr_true_iff (s : String) : isNonEmptyStr s = true ↔ s ≠ emptyStr := by
  simp [isNonEmptyStr]

theorem isNonEmptyStr_empty : isNonEmptyStr emptyStr = false := by
  simp [isNonEmptyStr]

theorem filterNE_cons_empty (l : List String) (x : String) (h : x = emptyStr) :
    (x :: l).filter isNonEmptyStr = l.filter isNonEmptyStr := by
  rw [List.filter_cons, h, isNonEmptyStr_empty]
  simp

theorem filterNE_cons_ne (l : List String) (x : String) (h : x ≠ emptyStr) :
    (x :: l).filter isNonEmptyStr = x :: l.filter isNonEmptyStr := by
  rw [List.filter_cons, (isNonEmptyStr_true_iff x).mpr h]
  simp

theorem joinNonEmpty_singleton (s : String) : joinNonEmpty [s] = s := by
  unfold joinNonEmpty
  by_cases h : s = emptyStr
  · rw [filterNE_cons_empty _ _ h]
    rw [h]
    rfl
  · rw [filterNE_cons_ne _ _ h]
    rfl

theorem joinNonEmpty_snoc_le (l : List String) (x : String) :
    byteLen (joinNonEmpty (l ++ [x])) ≤
      byteLen (joinNonEmpty l) + (if x = emptyStr then 0 else 1 + byteLen x) := by
  unfold joinNonEmpty
  rw [List.filter_append]
  by_cases hx : x = emptyStr
  · rw [filterNE_cons_empty _ _ hx, if_pos hx]
    simp [List.filter]
  · rw [filterNE_cons_ne _ _ hx, if_neg hx]
    rw [show List.filter isNonEmptyStr [] = [] from rfl]
    rcases hl : List.filter isNonEmptyStr l with _ | ⟨a, m⟩
    · rw [List.nil_append]
      rw [show joinStrings [x] = x from rfl, show byteLen (joinStrings []) = 0 from rfl]
      omega
    · rw [byteLen_joinStrings_snoc (a :: m) x (by simp)]
      omega

theorem joinNonEmpty_ne_empty (l : List String) (s : String) (hs : s ∈ l)
    (hne : s ≠ emptyStr) : joinNonEmpty l ≠ emptyStr := by
  unfold joinNonEmpty
  apply joinStrings_ne_empty
  · intro hc
    have hmem : s ∈ List.filter isNonEmptyStr l :=
      List.mem_filter.mpr ⟨hs, (isNonEmptyStr_true_iff s).mpr hne⟩
    rw [hc] at hmem
    simp at hmem
  · intro t ht
    exact (isNonEmptyStr_true_iff t).mp (List.of_mem_filter ht)

/-! ### The merged size of a batch -/

/-- The `len_in_bytes` of the record a batch merges into: the byte lengths of
the newline-joined non-empty stdouts and stderrs. -/
def mergedLen (b : List JobRunResult) : Nat :=
  byteLen (joinNonEmpty (b.map (fun r => r.stdout))) +
    byteLen (joinNonEmpty (b.map (fun r => r.stderr)))

theorem mergedLen_singleton (r : JobRunResult) : mergedLen [r] = len_in_bytes r := by
  unfold mergedLen
  rw [List.map_singleton, List.map_singleton, joinNonEmpty_singleton, joinNonEmpty_singleton]
  rfl

theorem mergedLen_snoc_le (b : List JobRunResult) (x : JobRunResult) :
    mergedLen (b ++ [x]) ≤ mergedLen b + padding x + len_in_bytes x := by
  have h1 := joinNonEmpty_snoc_le (b.map (fun r => r.stdout)) x.stdout
  have h2 := joinNonEmpty_snoc_le (b.map (fun r => r.stderr)) x.stderr
  have hm : mergedLen (b ++ [x]) =
      byteLen (joinNonEmpty (b.map (fun r => r.stdout) ++ [x.stdout])) +
        byteLen (joinNonEmpty (b.map (fun r => r.stderr) ++ [x.stderr])) := by
    unfold mergedLen
    rw [List.map_append, List.map_append, List.map_singleton, List.map_singleton]
  have hlen : len_in_bytes x = byteLen x.stdout + byteLen x.stderr := rfl
  rw [hm]
  unfold mergedLen padding
  by_cases ho : x.stdout = emptyStr <;> by_cases he : x.stderr = emptyStr
  · rw [if_pos ho] at h1
    rw [if_pos he] at h2
    rw [if_neg (by tauto)]
    omega
  · rw [if_pos ho] at h1
    rw [if_neg he] at h2
    rw [if_neg (by tauto)]
    omega
  · rw [if_neg ho] at h1
    rw [if_pos he] at h2
    rw [if_neg (by tauto)]
    omega
  · rw [if_neg ho] at h1
    rw [if_neg he] at h2
    rw [if_pos ⟨ho, he⟩]
    omega

/-! ### Constructor and mergeBatch -/

theorem mkJobRunResult_ok_elim (so se : String) (r : JobRunResult)
    (h : mkJobRunResult so se = .ok r) :
    r = ⟨so, se⟩ ∧ len_in_bytes r ≤ MAX_OUTPUT_BYTES := by
  unfold mkJobRunResult at h
  split_ifs at h with h1 h2 <;> cases h <;> exact ⟨rfl, by omega⟩

theorem mkJobRunResult_ok_of (so se : String) (h1 : so ≠ emptyStr ∨ se ≠ emptyStr)
    (h2 : len_in_bytes ⟨so, se⟩ ≤ MAX_OUTPUT_BYTES) :
    mkJobRunResult so se = .ok ⟨so, se⟩ := by
  unfold mkJobRunResult
  rw [if_neg (by tauto), if_neg (by omega)]

theorem mergeBatch_ok_elim (b : List JobRunResult) (r : JobRunResult)
    (h : mergeBatch b = .ok r) :
    r.stdout = joinNonEmpty (b.map (fun x => x.stdout)) ∧
      r.stderr = joinNonEmpty (b.map (fun x => x.stderr)) ∧
      len_in_bytes r ≤ MAX_OUTPUT_BYTES := by
  unfold mergeBatch at h
  have := mkJobRunResult_ok_elim _ _ _ h
  rcases this with ⟨hr, hle⟩
  rw [hr]
  exact ⟨rfl, rfl, by rw [hr] at hle; exact hle⟩

theorem mergeBatch_ok_of (b : List JobRunResult) (x : JobRunResult) (hx : x ∈ b)
    (hne : x.stdout ≠ emptyStr ∨ x.stderr ≠ emptyStr)
    (hle : mergedLen b ≤ MAX_OUTPUT_BYTES) :
    mergeBatch b = .ok ⟨joinNonEmpty (b.map (fun r => r.stdout)),
      joinNonEmpty (b.map (fun r => r.stderr))⟩ := by
  unfold mergeBatch
  apply mkJobRunResult_ok_of
  · rcases hne with h | h
    · exact Or.inl (joinNonEmpty_ne_empty _ x.stdout (List.mem_map_of_mem _ hx) h)
    · exact Or.inr (joinNonEmpty_ne_empty _ x.stderr (List.mem_map_of_mem _ hx) h)
  · exact hle

/-! ### The batching loop -/

theorem batchLoop_flatten (rest : List JobRunResult) :
    ∀ cb sz, (batchLoop cb sz rest).flatten = cb ++ rest := by
  induction rest with
  | nil =>
    intro cb sz
    simp [batchLoop]
  | cons next tl ih =>
    intro cb sz
    unfold batchLoop
    split_ifs
    · rw [ih]
      simp
    · rw [List.flatten_cons, ih]
      simp

theorem batchLoop_mem_ne_nil (rest : List JobRunResult) :
    ∀ cb sz, cb ≠ [] → ∀ b ∈ batchLoop cb sz rest, b ≠ [] := by
  induction rest with
  | nil =>
    intro cb sz hcb b hb
    simp [batchLoop] at hb
    rw [hb]
    exact hcb
  | cons next tl ih =>
    intro cb sz hcb b hb
    unfold batchLoop at hb
    split_ifs at hb
    · exact ih _ _ (by simp) b hb
    · rcases List.mem_cons.mp hb with h | h
      · rw [h]
        exact hcb
      · exact ih _ _ (by simp) b h

theorem batchLoop_mergedLen_le (rest : List JobRunResult) :
    ∀ cb sz, mergedLen cb ≤ sz → sz ≤ MAX_OUTPUT_BYTES →
      (∀ r ∈ rest, len_in_bytes r ≤ MAX_OUTPUT_BYTES) →
      ∀ b ∈ batchLoop cb sz rest, mergedLen b ≤ MAX_OUTPUT_BYTES := by
  induction rest with
  | nil =>
    intro cb sz h1 h2 _ b hb
    simp [batchLoop] at hb
    rw [hb]
    omega
  | cons next tl ih =>
    intro cb sz h1 h2 hrest b hb
    unfold batchLoop at hb
    split_ifs at hb with hcond
    · refine ih _ _ ?_ (by omega) (fun r hr => hrest r (by simp [hr])) b hb
      calc mergedLen (cb ++ [next]) ≤ mergedLen cb + padding next + len_in_bytes next :=
            mergedLen_snoc_le cb next
        _ ≤ sz + padding next + len_in_bytes next := by omega
    · rcases List.mem_cons.mp hb with h | h
      · rw [h]
        omega
      · refine ih _ _ ?_ ?_ (fun r hr => hrest r (by simp [hr])) b h
        · rw [mergedLen_singleton]
        · exact hrest next (by simp)

/-! ### mergeAll -/

theorem mergeAll_forall2 (bs : List (List JobRunResult)) (out : List JobRunResult)
    (h : mergeAll bs = .ok out) :
    List.Forall₂ (fun b r => mergeBatch b = .ok r) bs out := by
  induction bs generalizing out with
  | nil =>
    unfold mergeAll at h
    cases h
    exact List.Forall₂.nil
  | cons b tl ih =>
    unfold mergeAll at h
    rcases hb : mergeBatch b with e | r
    · rw [hb] at h
      cases h
    · rw [hb] at h
      rcases ht : mergeAll tl with e | rs
      · rw [ht] at h
        cases h
      · rw [ht] at h
        cases h
        exact List.Forall₂.cons hb (ih rs ht)

theorem mergeAll_isOk (bs : List (List JobRunResult))
    (h : ∀ b ∈ bs, ∃ r, mergeBatch b = .ok r) : ∃ out, mergeAll bs = .ok out := by
  induction bs with
  | nil => exact ⟨[], rfl⟩
  | cons b tl ih =>
    rcases h b (by simp) with ⟨r, hr⟩
    rcases ih (fun b hb => h b (by simp [hb])) with ⟨rs, hrs⟩
    refine ⟨r :: rs, ?_⟩
    unfold mergeAll
    rw [hr, hrs]

/-! ### The heap-extraction order -/

theorem keyLE_total (a b : HeapEntry) : keyLE a b ∨ keyLE b a := by
  unfold keyLE
  rcases Nat.lt_trichotomy a.1 b.1 with h | h | h
  · exact Or.inl (Or.inl h)
  · rcases Nat.le_total a.2.1 b.2.1 with h2 | h2
    · exact Or.inl (Or.inr ⟨h, h2⟩)
    · exact Or.inr (Or.inr ⟨h.symm, h2⟩)
  · exact Or.inr (Or.inl h)

theorem keyLE_trans (a b c : HeapEntry) (h1 : keyLE a b) (h2 : keyLE b c) : keyLE a c := by
  unfold keyLE at h1 h2 ⊢
  rcases h1 with h1 | ⟨h1, h1i⟩ <;> rcases h2 with h2 | ⟨h2, h2i⟩
  · exact Or.inl (Nat.lt_trans h1 h2)
  · exact Or.inl (h2 ▸ h1)
  · exact Or.inl (h1 ▸ h2)
  · exact Or.inr ⟨h1.trans h2, Nat.le_trans h1i h2i⟩

theorem insertEntry_perm (x : HeapEntry) (l : List HeapEntry) :
    (insertEntry x l).Perm (x :: l) := by
  induction l with
  | nil => exact List.Perm.refl _
  | cons y ys ih =>
    unfold insertEntry
    split_ifs
    · exact List.Perm.refl _
    · exact (List.Perm.cons y ih).trans (List.Perm.swap x y ys)

theorem sortEntries_perm (l : List HeapEntry) : (sortEntries l).Perm l := by
  induction l with
  | nil => exact List.Perm.refl _
  | cons x xs ih =>
    unfold sortEntries
    exact (insertEntry_perm x (sortEntries xs)).trans (List.Perm.cons x ih)

theorem insertEntry_pairwise (x : HeapEntry) (l : List HeapEntry)
    (h : l.Pairwise keyLE) : (insertEntry x l).Pairwise keyLE := by
  induction l with
  | nil => simp [insertEntry]
  | cons y ys ih =>
    unfold insertEntry
    rcases List.pairwise_cons.mp h with ⟨hy, hys⟩
    split_ifs with hxy
    · refine List.pairwise_cons.mpr ⟨?_, h⟩
      intro a ha
      rcases List.mem_cons.mp ha with rfl | ha
      · exact hxy
      · exact keyLE_trans x y a hxy (hy a ha)
    · refine List.pairwise_cons.mpr ⟨?_, ih hys⟩
      intro a ha
      have := (insertEntry_perm x ys).mem_iff.mp ha
      rcases List.mem_cons.mp this with rfl | ha2
      · rcases keyLE_total y a with h2 | h2
        · exact h2
        · exact absurd h2 hxy
      · exact hy a ha2

theorem sortEntries_pairwise (l : List HeapEntry) : (sortEntries l).Pairwise keyLE := by
  induction l with
  | nil => simp [sortEntries]
  | cons x xs ih =>
    unfold sortEntries
    exact insertEntry_pairwise x (sortEntries xs) ih

theorem keyed_map_record (results : List JobRunResult) :
    (keyed results).map (fun t => t.2.2) = results := by
  unfold keyed
  rw [List.map_map]
  have : ((fun t : HeapEntry => t.2.2) ∘ fun p : Nat × JobRunResult =>
      ((len_in_bytes p.2, p.1, p.2) : HeapEntry)) = Prod.snd := rfl
  rw [this, List.enum_map_snd]

theorem keyed_map_idx (results : List JobRunResult) :
    (keyed results).map (fun t => t.2.1) = List.range results.length := by
  unfold keyed
  rw [List.map_map]
  have : ((fun t : HeapEntry => t.2.1) ∘ fun p : Nat × JobRunResult =>
      ((len_in_bytes p.2, p.1, p.2) : HeapEntry)) = Prod.fst := rfl
  rw [this, List.enum_map_fst]

theorem heapOrder_perm (results : List JobRunResult) :
    ((sortEntries (keyed results)).map (fun t => t.2.2)).Perm results := by
  have h := (sortEntries_perm (keyed results)).map (fun t : HeapEntry => t.2.2)
  rw [keyed_map_record] at h
  exact h

/-! ### Uniqueness of the sorted extraction order -/

instance : IsAntisymm HeapEntry keyLT := by
  constructor
  intro a b h1 h2
  exfalso
  unfold keyLT at h1 h2
  rcases h1 with h1 | ⟨h1e, h1i⟩ <;> rcases h2 with h2 | ⟨h2e, h2i⟩ <;> omega

theorem pairwise_keyLT_of (l : List HeapEntry) (hle : l.Pairwise keyLE)
    (hne : l.Pairwise (fun a b => a.2.1 ≠ b.2.1)) : l.Pairwise keyLT := by
  refine (hle.and hne).imp ?_
  intro a b hab
  rcases hab with ⟨h1, h2⟩
  unfold keyLE at h1
  unfold keyLT
  rcases h1 with h | ⟨he, hi⟩
  · exact Or.inl h
  · exact Or.inr ⟨he, lt_of_le_of_ne hi h2⟩

theorem ord_idx_nodup (results : List JobRunResult) (ord : List HeapEntry)
    (hperm : ord.Perm (keyed results)) : (ord.map (fun t => t.2.1)).Nodup := by
  have h1 : ((keyed results).map (fun t => t.2.1)).Nodup := by
    rw [keyed_map_idx]
    exact List.nodup_range _
  exact ((hperm.map (fun t => t.2.1)).nodup_iff).mpr h1

theorem sorted_orders_eq (results : List JobRunResult) (ord : List HeapEntry)
    (hperm : ord.Perm (keyed results)) (hsorted : ord.Pairwise keyLE) :
    ord = sortEntries (keyed results) := by
  have hperm2 : ord.Perm (sortEntries (keyed results)) :=
    hperm.trans (sortEntries_perm _).symm
  have hs1 : ord.Pairwise keyLT :=
    pairwise_keyLT_of _ hsorted (List.pairwise_map.mp (ord_idx_nodup results ord hperm))
  have hs2 : (sortEntries (keyed results)).Pairwise keyLT :=
    pairwise_keyLT_of _ (sortEntries_pairwise _)
      (List.pairwise_map.mp (ord_idx_nodup results _ (sortEntries_perm _)))
  exact List.eq_of_perm_of_sorted hperm2 hs1 hs2

/-! ### Split / join inverse lemmas -/

theorem splitChars_ne_nil (l : List Char) : splitChars l ≠ [] := by
  cases l with
  | nil => simp [splitChars]
  | cons c cs =>
    simp only [splitChars]
    rcases splitChars cs with _ | ⟨p, ps⟩
    · simp
    · split_ifs <;> simp

theorem splitChars_no_nl (l : List Char) (h : ∀ c ∈ l, c ≠ Char.ofNat 10) :
    splitChars l = [l] := by
  induction l with
  | nil => rfl
  | cons c cs ih =>
    have h1 : splitChars cs = [cs] := ih (fun x hx => h x (by simp [hx]))
    simp only [splitChars, h1]
    rw [if_neg (h c (by simp))]

theorem splitChars_append_nl (a t : List Char) (ha : ∀ c ∈ a, c ≠ Char.ofNat 10) :
    splitChars (a ++ Char.ofNat 10 :: t) = a :: splitChars t := by
  induction a with
  | nil =>
    simp only [List.nil_append, splitChars]
    rcases hsp : splitChars t with _ | ⟨p, ps⟩
    · exact absurd hsp (splitChars_ne_nil t)
    · simp
  | cons c cs ih =>
    simp only [List.cons_append, splitChars]
    simp only [List.append_eq]
    rw [ih (fun x hx => ha x (by simp [hx]))]
    have hc : c ≠ Char.ofNat 10 := ha c (by simp)
    simp [hc]

theorem joinStrings_data_cons (s : String) (m : List String) (h : m ≠ []) :
    (joinStrings (s :: m)).data = s.data ++ Char.ofNat 10 :: (joinStrings m).data := by
  rw [joinStrings_cons s m h, String.data_append, String.data_append]
  have hnl : nl.data = [Char.ofNat 10] := rfl
  rw [hnl]
  simp

theorem splitChars_join (as : List String) (h0 : as ≠ [])
    (h : ∀ s ∈ as, NoNewline s) :
    splitChars (joinStrings as).data = as.map String.data := by
  induction as with
  | nil => exact absurd rfl h0
  | cons s m ih =>
    cases m with
    | nil =>
      show splitChars s.data = [s.data]
      exact splitChars_no_nl s.data (h s (by simp))
    | cons b t =>
      rw [joinStrings_data_cons s _ (by simp)]
      rw [splitChars_append_nl _ _ (h s (by simp))]
      rw [ih (by simp) (fun x hx => h x (by simp [hx]))]
      rfl

theorem splitPieces_joinNonEmpty (ss : List String) (h : ∀ s ∈ ss, NoNewline s) :
    splitPieces (joinNonEmpty ss) = ss.filter isNonEmptyStr := by
  unfold joinNonEmpty splitPieces
  rcases hf : ss.filter isNonEmptyStr with _ | ⟨a, m⟩
  · decide
  · have hmem : ∀ s ∈ a :: m, NoNewline s := by
      intro s hs
      exact h s (List.mem_of_mem_filter (hf ▸ hs))
    rw [splitChars_join (a :: m) (by simp) hmem, List.map_map]
    have hid : (String.mk ∘ String.data) = id := funext (fun s => rfl)
    rw [hid, List.map_id]
    apply List.filter_eq_self.mpr
    intro x hx
    exact List.of_mem_filter (hf ▸ hx : x ∈ ss.filter isNonEmptyStr)

/-! ### Decomposing a successful accumulate run -/

theorem accumulate_ok_elim (results : List JobRunResult) (out : List JobRunResult)
    (h : accumulate results = .ok out) :
    ∃ batches : List (List JobRunResult),
      batches.flatten.Perm results ∧
      List.Forall₂ (fun b r => mergeBatch b = .ok r) batches out := by
  unfold accumulate accumulateFromOrder at h
  rcases hm : (sortEntries (keyed results)).map (fun t => t.2.2) with _ | ⟨first, rest⟩
  · rw [hm] at h
    cases h
    refine ⟨[], ?_, List.Forall₂.nil⟩
    have h1 := heapOrder_perm results
    rw [hm] at h1
    simpa using h1
  · rw [hm] at h
    refine ⟨batchLoop [first] (len_in_bytes first) rest, ?_, mergeAll_forall2 _ _ h⟩
    rw [batchLoop_flatten]
    have h1 := heapOrder_perm results
    rw [hm] at h1
    simpa using h1

theorem forall2_mem_right {α β : Type} {R : α → β → Prop} {l1 : List α} {l2 : List β}
    (h : List.Forall₂ R l1 l2) {y : β} (hy : y ∈ l2) : ∃ x ∈ l1, R x y := by
  induction h with
  | nil => cases hy
  | cons ha ht ih =>
    rcases List.mem_cons.mp hy with rfl | hy2
    · exact ⟨_, by simp, ha⟩
    · rcases ih hy2 with ⟨x, hx, hR2⟩
      exact ⟨x, by simp [hx], hR2⟩

theorem forall2_map_eq {α β γ : Type} {R : α → β → Prop} :
    ∀ {l1 : List α} {l2 : List β}, List.Forall₂ R l1 l2 →
      ∀ (g : α → γ) (f : β → γ), (∀ a b, a ∈ l1 → R a b → f b = g a) →
      l2.map f = l1.map g := by
  intro l1
  induction l1 with
  | nil =>
    intro l2 h g f _
    cases h
    rfl
  | cons a t ih =>
    intro l2 h g f hfg
    cases h with
    | cons hab ht =>
      simp only [List.map]
      rw [hfg a _ (by simp) hab]
      rw [ih ht g f (fun a2 b2 ha2 hr2 => hfg a2 b2 (by simp [ha2]) hr2)]

/-! ### Auxiliary facts for the factory claims -/

theorem strConv_true (v : String) : strConv v true = pyRepr v := rfl

theorem strConv_false (v : String) : strConv v false = pyStr v := rfl

theorem pyRepr_ne_empty (v : String) : pyRepr v ≠ emptyStr := by
  intro hc
  have h0 : byteLen (pyRepr v) = 0 := (byteLen_eq_zero_iff _).mpr hc
  unfold pyRepr at h0
  rw [byteLen_append, byteLen_append] at h0
  have hq : byteLen (String.singleton quoteChar) = 1 := by decide
  omega

/-! ### The claims -/

/-- Claim C1: for every input list of valid `JobRunResult` records (each with
at least one non-empty channel and `len_in_bytes` at most 1500), every record
in the list returned by `accumulate` satisfies
`len_in_bytes r ≤ MAX_OUTPUT_BYTES`. -/
theorem claim_C1 (results out : List JobRunResult)
    (hval : ∀ r ∈ results, Valid r)
    (hout : accumulate results = .ok out) :
    ∀ r ∈ out, len_in_bytes r ≤ MAX_OUTPUT_BYTES := by
  rcases accumulate_ok_elim results out hout with ⟨batches, _, hf⟩
  intro r hr
  rcases forall2_mem_right hf hr with ⟨b, _, hb⟩
  exact (mergeBatch_ok_elim b r hb).2.2

/-- Witness for C1 at a concrete input. -/
theorem claim_C1_witness : len_in_bytes ra ≤ MAX_OUTPUT_BYTES :=
  claim_C1 [ ra ] [ ra ] (by decide) (by decide) ra (by simp)

/-- Claim C3: for every list of valid (pre-validated) records, `accumulate`
returns normally — the re-validating constructor call made for each merged
batch never raises, neither for emptiness nor for exceeding the byte
ceiling. -/
theorem claim_C3 (results : List JobRunResult) (hval : ∀ r ∈ results, Valid r) :
    (accumulate results).isOk = true := by
  unfold accumulate accumulateFromOrder
  rcases hm : (sortEntries (keyed results)).map (fun t => t.2.2) with _ | ⟨first, rest⟩
  · rw [hm]
    rfl
  · have hperm := heapOrder_perm results
    rw [hm] at hperm
    have hv : ∀ r ∈ first :: rest, Valid r := fun r hr => hval r (hperm.mem_iff.mp hr)
    rw [hm]
    show (mergeAll (batchLoop [first] (len_in_bytes first) rest)).isOk = true
    have hpre : ∀ b ∈ batchLoop [first] (len_in_bytes first) rest,
        ∃ r2, mergeBatch b = .ok r2 := by
      intro b hb
      have hble := batchLoop_mergedLen_le rest [first] (len_in_bytes first)
        (by rw [mergedLen_singleton]) (hv first (by simp)).2
        (fun r hr => (hv r (by simp [hr])).2) b hb
      have hbne := batchLoop_mem_ne_nil rest [first] (len_in_bytes first) (by simp) b hb
      rcases b with _ | ⟨x, xs⟩
      · exact absurd rfl hbne
      · have hxmem : x ∈ [first] ++ rest := by
          have hfl := batchLoop_flatten rest [first] (len_in_bytes first)
          have hx2 : x ∈ (batchLoop [first] (len_in_bytes first) rest).flatten :=
            List.mem_flatten.mpr ⟨x :: xs, hb, by simp⟩
          rw [hfl] at hx2
          exact hx2
        have hxv : Valid x := hv x (by simpa using hxmem)
        exact ⟨_, mergeBatch_ok_of (x :: xs) x (by simp) hxv.1 hble⟩
    rcases mergeAll_isOk (batchLoop [first] (len_in_bytes first) rest) hpre with ⟨out, hok⟩
    rw [hok]
    rfl

/-- Witness for C3 at a concrete input. -/
theorem claim_C3_witness : (accumulate [ ra ]).isOk = true :=
  claim_C3 [ ra ] (by decide)

/-- Claim C7: constructing a `JobRunResult` from a `(stdout, stderr)` pair
fails if and only if both channels are empty or the combined byte length
exceeds `MAX_OUTPUT_BYTES`; construction at exactly 1500 bytes with a
non-empty channel succeeds. -/
theorem claim_C7 (stdout stderr : String) :
    ((∃ e, mkJobRunResult stdout stderr = .error e) ↔
      (stdout = emptyStr ∧ stderr = emptyStr) ∨
        len_in_bytes ⟨stdout, stderr⟩ > MAX_OUTPUT_BYTES) ∧
    ((stdout ≠ emptyStr ∨ stderr ≠ emptyStr) →
      len_in_bytes ⟨stdout, stderr⟩ = MAX_OUTPUT_BYTES →
      mkJobRunResult stdout stderr = .ok ⟨stdout, stderr⟩) := by
  constructor
  · constructor
    · rintro ⟨e, he⟩
      unfold mkJobRunResult at he
      split_ifs at he with h1 h2
      · exact Or.inl h1
      · exact Or.inr h2
    · intro h
      unfold mkJobRunResult
      rcases h with h | h
      · rw [if_pos h]
        exact ⟨.emptyResult, rfl⟩
      · by_cases h1 : stdout = emptyStr ∧ stderr = emptyStr
        · rw [if_pos h1]
          exact ⟨.emptyResult, rfl⟩
        · rw [if_neg h1, if_pos h]
          exact ⟨.exceedsMaxBytes, rfl⟩
  · intro h1 h2
    exact mkJobRunResult_ok_of _ _ h1 (by omega)

/-- Witness for C7: a 750+750 byte record sits exactly at the ceiling and is
accepted. -/
theorem claim_C7_witness : mkJobRunResult s750a s750b = .ok ⟨ s750a, s750b ⟩ :=
  (claim_C7 s750a s750b).2 (Or.inl (by decide)) (by decide)

/-- Claim C9 (amended): `as_stdout` and `as_stderr` never fail on account of
emptiness provided the string conversion of the value is non-empty — which
holds for every value under `use_repr = true`, but fails for the empty string
under `use_repr = false`, where the conversion is the empty string itself. -/
theorem claim_C9 (value : String) (use_repr : Bool)
    (h : use_repr = true ∨ value ≠ emptyStr) :
    as_stdout value use_repr ≠ .error .emptyResult ∧
      as_stderr value use_repr ≠ .error .emptyResult := by
  have hconv : strConv value use_repr ≠ emptyStr := by
    cases use_repr with
    | true =>
      rw [strConv_true]
      exact pyRepr_ne_empty value
    | false =>
      rw [strConv_false]
      rcases h with h | h
      · cases h
      · exact h
  constructor
  · unfold as_stdout mkJobRunResult
    rw [if_neg (fun hc => hconv hc.1)]
    split_ifs <;> simp
  · unfold as_stderr mkJobRunResult
    rw [if_neg (fun hc => hconv hc.2)]
    split_ifs <;> simp

/-- Witness for C9 at a concrete input. -/
theorem claim_C9_witness :
    as_stdout s750a false ≠ .error .emptyResult ∧
      as_stderr s750a false ≠ .error .emptyResult :=
  claim_C9 s750a false (Or.inr (by decide))

/-- Counterexample for C9 as stated: the string conversion of the empty-string
value under `use_repr = false` is empty, so both factories raise the emptiness
`ValidationError`. -/
theorem claim_C9_counterexample :
    as_stdout emptyStr false = .error .emptyResult ∧
      as_stderr emptyStr false = .error .emptyResult := by
  decide

/-- Claim C10: accumulating a singleton valid record is the identity:
`accumulate [r]` returns the one-element list `[r]` (field-wise equality). -/
theorem claim_C10 (r : JobRunResult) (hr : Valid r) : accumulate [ r ] = .ok [ r ] := by
  unfold accumulate
  have hs : sortEntries (keyed [ r ]) = [ (len_in_bytes r, 0, r) ] := rfl
  rw [hs]
  show mergeAll [ [ r ] ] = .ok [ r ]
  have hmb : mergeBatch [ r ] = .ok r := by
    unfold mergeBatch
    rw [List.map_singleton, List.map_singleton, joinNonEmpty_singleton, joinNonEmpty_singleton]
    exact mkJobRunResult_ok_of r.stdout r.stderr hr.1 hr.2
  unfold mergeAll
  rw [hmb]
  rfl

/-- Witness for C10 at a concrete input. -/
theorem claim_C10_witness : accumulate [ ra ] = .ok [ ra ] :=
  claim_C10 ra (by decide)

/-- A stderr-only record, used to exhibit the padding over-charge. -/
def rErrX : JobRunResult := ⟨ emptyStr, "x" ⟩

/-- A stdout-only record, used to exhibit the padding over-charge. -/
def rOutY : JobRunResult := ⟨ "y", emptyStr ⟩

/-- Claim C4: the next-smallest record is appended exactly when
`current_batch_size + padding + next_size` is strictly below the ceiling;
otherwise a new batch is seeded with that record and the size is reset to
`next_size`. For two 800-byte records, `accumulate` returns them unmerged. -/
theorem claim_C4 :
    (∀ cb sz next rest, sz + padding next + len_in_bytes next < MAX_OUTPUT_BYTES →
      batchLoop cb sz (next :: rest) =
        batchLoop (cb ++ [next]) (sz + padding next + len_in_bytes next) rest) ∧
    (∀ cb sz next rest, ¬ sz + padding next + len_in_bytes next < MAX_OUTPUT_BYTES →
      batchLoop cb sz (next :: rest) =
        cb :: batchLoop [next] (len_in_bytes next) rest) ∧
    accumulate [ r800a, r800b ] = .ok [ r800a, r800b ] := by
  refine ⟨?_, ?_, ?_⟩
  · intro cb sz next rest h
    have he : batchLoop cb sz (next :: rest) =
        if sz + padding next + len_in_bytes next < MAX_OUTPUT_BYTES then
          batchLoop (cb ++ [next]) (sz + padding next + len_in_bytes next) rest
        else cb :: batchLoop [next] (len_in_bytes next) rest := rfl
    rw [he, if_pos h]
  · intro cb sz next rest h
    have he : batchLoop cb sz (next :: rest) =
        if sz + padding next + len_in_bytes next < MAX_OUTPUT_BYTES then
          batchLoop (cb ++ [next]) (sz + padding next + len_in_bytes next) rest
        else cb :: batchLoop [next] (len_in_bytes next) rest := rfl
    rw [he, if_neg h]
  · decide

/-- Witness for C4: a concrete append step (1 + 1 + 1 < 1500) and a concrete
boundary step (1498 + 1 + 1 = 1500, not strictly below, so a new batch is
forced). -/
theorem claim_C4_witness :
    batchLoop [ ra ] 1 [ rb ] =
      batchLoop ([ ra ] ++ [ rb ]) (1 + padding rb + len_in_bytes rb) [] ∧
    batchLoop [ ra ] 1498 [ rb ] = [ ra ] :: batchLoop [ rb ] (len_in_bytes rb) [] :=
  ⟨claim_C4.1 [ ra ] 1 rb [] (by decide),
    claim_C4.2.1 [ ra ] 1498 rb [] (by decide)⟩

/-- Claim C5 (amended): the delimiter padding charged for the next record is
derived from the next record alone (2 if both its channels are non-empty,
else 1); it is an upper bound on the precise per-channel cost, and agrees
with it when both accumulated batch channels already have content and the
next record is valid. -/
theorem claim_C5 :
    (∀ outAcc errAcc next, precisePadding outAcc errAcc next ≤ padding next) ∧
    (∀ outAcc errAcc next, Valid next → outAcc ≠ emptyStr → errAcc ≠ emptyStr →
      precisePadding outAcc errAcc next = padding next) := by
  constructor
  · intro o e n
    unfold precisePadding padding
    split_ifs <;> first | omega | tauto
  · intro o e n hv ho he
    have hne := hv.1
    unfold precisePadding padding
    split_ifs <;> first | omega | tauto

/-- Witness for C5 at concrete inputs. -/
theorem claim_C5_witness :
    precisePadding emptyStr emptyStr rOutY ≤ padding rOutY ∧
      precisePadding ra.stdout rErrX.stderr rOutY = padding rOutY :=
  ⟨claim_C5.1 emptyStr emptyStr rOutY,
    claim_C5.2 ra.stdout rErrX.stderr rOutY (by decide) (by decide) (by decide)⟩

/-- Counterexample for C5 as stated: the code charges `padding` from the next
record alone; with a batch whose accumulated stdout is empty (a stderr-only
record) and a stdout-only next record, the precise per-channel cost is 0 but
the code charges 1. -/
theorem claim_C5_counterexample :
    padding rOutY ≠
      precisePadding (joinNonEmpty ([ rErrX ].map (fun r => r.stdout)))
        (joinNonEmpty ([ rErrX ].map (fun r => r.stderr))) rOutY := by
  decide

/-- Claim C6: `accumulate` consumes records in ascending lexicographic order
of `(len_in_bytes, original index)` — the extraction order is a
`keyLE`-sorted permutation of the keyed inputs — and on three 1-byte
stdout-only records it returns a single merged record `a\nb\nc`. -/
theorem claim_C6 :
    (∀ results : List JobRunResult,
      (sortEntries (keyed results)).Pairwise keyLE ∧
        (sortEntries (keyed results)).Perm (keyed results)) ∧
    accumulate [ ra, rb, rc ] = .ok [ ⟨ sABC, emptyStr ⟩ ] := by
  refine ⟨fun results => ⟨sortEntries_pairwise _, sortEntries_perm _⟩, ?_⟩
  decide

/-- Claim C8: determinism — any heap-extraction order that is a
`keyLE`-sorted permutation of the keyed inputs (every run of `heapq` produces
such an order, and the `(size, index)` keys make it unique) yields exactly the
same output list, so two calls on the same input agree element-wise. -/
theorem claim_C8 (results : List JobRunResult) (ord : List HeapEntry)
    (hperm : ord.Perm (keyed results)) (hsorted : ord.Pairwise keyLE) :
    accumulateFromOrder ord = accumulate results := by
  unfold accumulate
  rw [sorted_orders_eq results ord hperm hsorted]

/-- Witness for C8 at a concrete input. -/
theorem claim_C8_witness :
    accumulateFromOrder [ (1, 0, ra) ] = accumulate [ ra ] :=
  claim_C8 [ ra ] [ (1, 0, ra) ] (by decide) (by simp)

/-- Claim C2 (amended): for input records whose channels are free of the
newline join delimiter, splitting each output record's stdout on the
delimiter and collecting the non-empty pieces yields, as a multiset, exactly
the stdout values of the input records having non-empty stdout; analogously
for stderr. -/
theorem claim_C2 (results out : List JobRunResult)
    (hval : ∀ r ∈ results, Valid r ∧ NoNewline r.stdout ∧ NoNewline r.stderr)
    (hout : accumulate results = .ok out) :
    ((out.map (fun r => splitPieces r.stdout)).flatten : Multiset String) =
      ↑((results.map (fun r => r.stdout)).filter isNonEmptyStr) ∧
    ((out.map (fun r => splitPieces r.stderr)).flatten : Multiset String) =
      ↑((results.map (fun r => r.stderr)).filter isNonEmptyStr) := by
  rcases accumulate_ok_elim results out hout with ⟨batches, hbperm, hf⟩
  have hnl : ∀ r0 ∈ batches.flatten, NoNewline r0.stdout ∧ NoNewline r0.stderr := by
    intro r0 hr0
    have hm := hbperm.mem_iff.mp hr0
    exact ⟨(hval r0 hm).2.1, (hval r0 hm).2.2⟩
  have hmem_nl : ∀ b ∈ batches, ∀ (f : JobRunResult → String),
      (∀ r0, NoNewline r0.stdout ∧ NoNewline r0.stderr → NoNewline (f r0)) →
      ∀ s ∈ b.map f, NoNewline s := by
    intro b hb f hch s hs
    rcases List.mem_map.mp hs with ⟨r0, hr0, rfl⟩
    exact hch r0 (hnl r0 (List.mem_flatten.mpr ⟨b, hb, hr0⟩))
  have hstdout : out.map (fun r => splitPieces r.stdout) =
      batches.map (fun b => (b.map (fun r => r.stdout)).filter isNonEmptyStr) := by
    refine forall2_map_eq hf _ _ ?_
    intro b r hb hbr
    rw [(mergeBatch_ok_elim b r hbr).1]
    exact splitPieces_joinNonEmpty _
      (hmem_nl b hb (fun r => r.stdout) (fun r0 h => h.1))
  have hstderr : out.map (fun r => splitPieces r.stderr) =
      batches.map (fun b => (b.map (fun r => r.stderr)).filter isNonEmptyStr) := by
    refine forall2_map_eq hf _ _ ?_
    intro b r hb hbr
    rw [(mergeBatch_ok_elim b r hbr).2.1]
    exact splitPieces_joinNonEmpty _
      (hmem_nl b hb (fun r => r.stderr) (fun r0 h => h.2))
  have key : ∀ (f : JobRunResult → String),
      (batches.map (fun b => (b.map f).filter isNonEmptyStr)).flatten.Perm
        ((results.map f).filter isNonEmptyStr) := by
    intro f
    have h1 : batches.map (fun b => (b.map f).filter isNonEmptyStr) =
        (batches.map (fun b => b.map f)).map (fun l => l.filter isNonEmptyStr) := by
      rw [List.map_map]
      rfl
    rw [h1, ← List.filter_flatten, ← List.map_flatten]
    exact (hbperm.map f).filter isNonEmptyStr
  constructor
  · rw [hstdout]
    exact Multiset.coe_eq_coe.mpr (key (fun r => r.stdout))
  · rw [hstderr]
    exact Multiset.coe_eq_coe.mpr (key (fun r => r.stderr))

/-- Witness for C2 at a concrete input. -/
theorem claim_C2_witness :
    ((([ ra ].map (fun r => splitPieces r.stdout)).flatten : Multiset String) =
      ↑(([ ra ].map (fun r => r.stdout)).filter isNonEmptyStr)) ∧
    ((([ ra ].map (fun r => splitPieces r.stderr)).flatten : Multiset String) =
      ↑(([ ra ].map (fun r => r.stderr)).filter isNonEmptyStr)) :=
  claim_C2 [ ra ] [ ra ] (by decide) (by decide)

/-- Counterexample for C2 as stated: a valid input record whose stdout itself
contains the join delimiter. `accumulate` is the identity on it, but splitting
the output stdout yields the two pieces `a` and `b` instead of the single
input value `a\nb`, so the multiset equality of the unrestricted claim
fails. -/
theorem claim_C2_counterexample :
    (∀ r ∈ [ rNl ], Valid r) ∧
    accumulate [ rNl ] = .ok [ rNl ] ∧
    ¬ ((([ rNl ].map (fun r => splitPieces r.stdout)).flatten : Multiset String) =
      ↑(([ rNl ].map (fun r => r.stdout)).filter isNonEmptyStr)) := by
  refine ⟨by decide, by decide, ?_⟩
  decide
